import Mathlib

/-!
Verification development for the simple shell in src/sshell.c.

The shell reads one command line, tokenizes it, parses the tokens into a
NULL-terminated list of processes (struct process: an argument vector and
the three descriptor slots fd_in, fd_out, fd_err), wires pipes and an
optional output-file redirection while parsing, then forks one child per
stage, installs the descriptors with dup2, closes every descriptor a stage
does not own, execs the program, and finally collects the exit statuses
indexed by pipeline position.

File descriptors are modelled symbolically: the three standard streams,
the two ends of the k-th pipe created while parsing, and the descriptor
returned by open() for a redirection target.  The code never does
arithmetic on descriptor values; it only compares them against the
standard-stream constants and passes them to dup2/close, so descriptor
identity is all that matters and pipe() returning fresh descriptors is
modelled by a fresh pipe index per call.

The open() call of redirect_proc_out is modelled by an oracle
can_open : List Char -> Bool saying which paths can be opened, and the
parsing functions additionally return the list of paths successfully
opened (created or truncated) while parsing, in order, so that
file-system side effects of a rejected command line are visible.
-/

namespace SShell

/-- Symbolic file descriptors: standard streams, the two ends of the k-th
pipe created by pipe(), and the descriptor of an opened output file. -/
inductive Fd where
  | stdin
  | stdout
  | stderr
  | pipeRead (k : ℕ)
  | pipeWrite (k : ℕ)
  | outFile (path : List Char)
deriving DecidableEq

/-- struct process of sshell.c: the argument vector (argv, without the
terminating NULL) and the three descriptor slots. -/
structure Process where
  argv : List (List Char)
  fd_in : Fd
  fd_out : Fd
  fd_err : Fd
deriving DecidableEq

instance : Inhabited Process := ⟨⟨[], Fd.stdin, Fd.stdout, Fd.stderr⟩⟩

/-- ARG_MAX of sshell.c: at most 16 arguments per process. -/
def ARG_MAX : ℕ := 16

/-- PROCESS_MAX of sshell.c: the procs, pids and statuses arrays have 8 slots. -/
def PROCESS_MAX : ℕ := 8

/-- TOKEN_MAX of sshell.c: the fixed token buffer holds 32 bytes. -/
def TOKEN_MAX : ℕ := 32

/-- The distinct failure outcomes of parse_command.  Every constructor but
the first corresponds to one error(...) message printed to stderr;
emptyCommandLine is the bare return -1 taken when the token list is empty,
which prints nothing. -/
inductive ParseErr where
  | emptyCommandLine
  | tooManyProcessArguments
  | missingCommand
  | noOutputFile
  | cannotOpenOutputFile
  | mislocatedOutputRedirection
deriving DecidableEq

/-- The NUL character, the value read from a C string at its terminator. -/
def nulChar : Char := Char.ofNat 0

/-- Whitespace as understood by the tokenizer: space or tab. -/
def isWsChar (c : Char) : Bool := c = ' ' || c = '\t'

/-- Characters that may continue an argument token: anything that is not
whitespace and not an operator character. -/
def isWordChar (c : Char) : Bool := !(c = ' ' || c = '\t' || c = '|' || c = '>')

/-- read_next_token of sshell.c: skip leading whitespace; at the string
terminator return none; otherwise read one token.  A first character | or
> yields an operator token, absorbing a directly following ampersand; any
other first character starts an argument token that extends over the
maximal run of word characters.  Returns the token and the remaining
input.  (The 32-byte token buffer of the C code is not modelled; the
overflow it risks on longer tokens is outside the scope of the claims,
which restrict tokens to fit the buffer.) -/
def read_next_token (iter : List Char) : Option (List Char × List Char) :=
  match iter.dropWhile isWsChar with
  | [] => none
  | c :: rest =>
    if c = '|' || c = '>' then
      if rest.headD nulChar = '&' then some ([c, '&'], rest.tail)
      else some ([c], rest)
    else
      some (c :: rest.takeWhile isWordChar, rest.dropWhile isWordChar)

/-- The loop of read_tokens of sshell.c, written with explicit fuel so the
definition is structurally recursive; read_next_token consumes at least
one character, so fuel larger than the input length is always enough. -/
def read_tokens_fuel : ℕ → List Char → List (List Char)
  | 0, _ => []
  | fuel + 1, cmdline =>
    match read_next_token cmdline with
    | none => []
    | some (tok, rest) => tok :: read_tokens_fuel fuel rest

/-- read_tokens of sshell.c: the full token list of a command line. -/
def read_tokens (cmdline : List Char) : List (List Char) :=
  read_tokens_fuel (cmdline.length + 1) cmdline

/-- The first character of a token; reading index 0 of an empty C string
yields the NUL terminator. -/
def headChar (tok : List Char) : Char := tok.headD nulChar

/-- The second character of a token, as read by the expression tok[1] of
the C code; past the end of the token this is the NUL terminator. -/
def secondChar (tok : List Char) : Char := tok.getD 1 nulChar

/-- is_arg of sshell.c, on the token under the iterator (none models the
NULL entry terminating the token array). -/
def is_arg : Option (List Char) → Bool
  | none => false
  | some tok => headChar tok != '>' && headChar tok != '|'

/-- is_pipe_token of sshell.c. -/
def is_pipe_token : Option (List Char) → Bool
  | none => false
  | some tok => headChar tok = '|'

/-- is_out_redirect_token of sshell.c. -/
def is_out_redirect_token : Option (List Char) → Bool
  | none => false
  | some tok => headChar tok = '>'

/-- Result of read_argv: the collected argument vector and the remaining
tokens, or a failure (the C function prints the message and returns NULL
in both failure cases). -/
inductive ArgvResult where
  | ok (argv : List (List Char)) (rest : List (List Char))
  | fail (e : ParseErr)
deriving DecidableEq

/-- The loop of read_argv of sshell.c: consume argument tokens while
is_arg holds; reaching ARG_MAX with another argument pending fails with
the too-many-arguments error; an empty argument vector afterwards fails
with the missing-command error. -/
def read_argv_go : List (List Char) → ℕ → List (List Char) → ArgvResult
  | tok :: rest, i, acc =>
    if is_arg (some tok) then
      if i = ARG_MAX then ArgvResult.fail ParseErr.tooManyProcessArguments
      else read_argv_go rest (i + 1) (acc ++ [tok])
    else if acc.isEmpty then ArgvResult.fail ParseErr.missingCommand
    else ArgvResult.ok acc (tok :: rest)
  | [], _, acc =>
    if acc.isEmpty then ArgvResult.fail ParseErr.missingCommand
    else ArgvResult.ok acc []

/-- read_argv of sshell.c. -/
def read_argv (toks : List (List Char)) : ArgvResult := read_argv_go toks 0 []

/-- pipe_procs of sshell.c: create the k-th pipe; the source process
writes to the write end, its error stream too when redirect_err is set,
and the destination process reads from the read end. -/
def pipe_procs (src dest : Process) (redirect_err : Bool) (k : ℕ) : Process × Process :=
  ({ src with fd_out := Fd.pipeWrite k,
              fd_err := if redirect_err then Fd.pipeWrite k else Fd.stderr },
   { dest with fd_in := Fd.pipeRead k })

/-- redirect_proc_out of sshell.c: open the output file (creating or
truncating it), set fd_out to it, and fd_err too when redirect_err is
set; none models the open() failure path returning -1. -/
def redirect_proc_out (proc : Process) (out_file_path : List Char) (redirect_err : Bool)
    (can_open : List Char → Bool) : Option Process :=
  if can_open out_file_path then
    some { proc with fd_out := Fd.outFile out_file_path,
                     fd_err := if redirect_err then Fd.outFile out_file_path else Fd.stderr }
  else none

/-- Result of parse_command: the NULL-terminated process list, or the
failure the C function reports by returning -1. -/
inductive ParseResult where
  | ok (procs : List Process)
  | fail (e : ParseErr)
deriving DecidableEq

/-- The while(true) loop of parse_command of sshell.c, with explicit fuel
(each iteration consumes at least one token, so fuel larger than the
token count is always enough; the fuel-0 value is never reached then).
Arguments: remaining tokens, the input descriptor of the process being
built (standard input for the first, the read end of the last pipe
afterwards), the index of the next pipe to create, and the processes
built so far.  The second component of the result is the list of output
files successfully opened while parsing. -/
def parse_loop_fuel (can_open : List Char → Bool) :
    ℕ → List (List Char) → Fd → ℕ → List Process → ParseResult × List (List Char)
  | 0, _, _, _, _ => (ParseResult.fail ParseErr.missingCommand, [])
  | fuel + 1, toks, cur_in, k, acc =>
    match read_argv toks with
    | ArgvResult.fail e => (ParseResult.fail e, [])
    | ArgvResult.ok argv rest =>
      match rest with
      | ptok :: rest2 =>
        if is_pipe_token (some ptok) then
          parse_loop_fuel can_open fuel rest2 (Fd.pipeRead k) (k + 1)
            (acc ++ [{ argv := argv, fd_in := cur_in, fd_out := Fd.pipeWrite k,
                       fd_err := if secondChar ptok != nulChar then Fd.pipeWrite k
                                 else Fd.stderr }])
        else if is_out_redirect_token (some ptok) then
          match rest2 with
          | [] => (ParseResult.fail ParseErr.noOutputFile, [])
          | out_file_path :: rest3 =>
            match redirect_proc_out { argv := argv, fd_in := cur_in, fd_out := Fd.stdout,
                                      fd_err := Fd.stderr }
                    out_file_path (secondChar ptok != nulChar) can_open with
            | none => (ParseResult.fail ParseErr.cannotOpenOutputFile, [])
            | some proc =>
              if is_pipe_token rest3.head? then
                (ParseResult.fail ParseErr.mislocatedOutputRedirection, [out_file_path])
              else (ParseResult.ok (acc ++ [proc]), [out_file_path])
        else
          (ParseResult.fail ParseErr.missingCommand, [])
      | [] =>
        (ParseResult.ok (acc ++ [{ argv := argv, fd_in := cur_in, fd_out := Fd.stdout,
                                   fd_err := Fd.stderr }]), [])

/-- The parse loop at its canonical fuel. -/
def parse_loop (can_open : List Char → Bool) (toks : List (List Char)) (cur_in : Fd)
    (k : ℕ) (acc : List Process) : ParseResult × List (List Char) :=
  parse_loop_fuel can_open (toks.length + 1) toks cur_in k acc

/-- parse_command of sshell.c from the token list on: an empty token list
is the bare return -1 (no message); otherwise the first process reads
from standard input and the loop runs. -/
def parse_tokens (can_open : List Char → Bool) (tokens : List (List Char)) :
    ParseResult × List (List Char) :=
  match tokens with
  | [] => (ParseResult.fail ParseErr.emptyCommandLine, [])
  | _ :: _ => parse_loop can_open tokens Fd.stdin 0 []

/-- parse_command of sshell.c: tokenize, then parse. -/
def parse_command (can_open : List Char → Bool) (cmdline : List Char) :
    ParseResult × List (List Char) :=
  parse_tokens can_open (read_tokens cmdline)

/-- close_nonstd_fds of sshell.c, acting on the set of open descriptors:
close each of the three descriptor slots of proc unless it is the
corresponding standard descriptor. -/
def close_nonstd_fds (proc : Process) (fds : Finset Fd) : Finset Fd :=
  let fds1 := if proc.fd_in ≠ Fd.stdin then fds.erase proc.fd_in else fds
  let fds2 := if proc.fd_out ≠ Fd.stdout then fds1.erase proc.fd_out else fds1
  if proc.fd_err ≠ Fd.stderr then fds2.erase proc.fd_err else fds2

/-- The non-standard descriptors among the three slots of a process: the
descriptors close_nonstd_fds closes. -/
def nonstd_fds (proc : Process) : Finset Fd :=
  (if proc.fd_in ≠ Fd.stdin then {proc.fd_in} else ∅)
    ∪ (if proc.fd_out ≠ Fd.stdout then {proc.fd_out} else ∅)
    ∪ (if proc.fd_err ≠ Fd.stderr then {proc.fd_err} else ∅)

/-- Apply close_nonstd_fds for each process of a list in order, as both
the parent loop of run_procs and the sibling-closing loop of a child do. -/
def close_procs_fds (procs : List Process) (fds : Finset Fd) : Finset Fd :=
  procs.foldl (fun s p => close_nonstd_fds p s) fds

/-- The descriptors still open in the parent of run_procs just before it
forks the child for stage i: the initial set minus everything
close_nonstd_fds removed for the stages forked in earlier iterations.
This is exactly the set the child for stage i inherits. -/
def parent_fds_before_spawn (initial : Finset Fd) (procs : List Process) (i : ℕ) :
    Finset Fd :=
  close_procs_fds (procs.take i) initial

/-- The descriptors still open in the child for stage i at the moment
exec_proc reaches execvp: the inherited set, minus the descriptors of the
stages after i (the for loop over j > i in the child branch of
run_procs), minus the non-standard descriptors of stage i itself, which
exec_proc closes after duplicating them onto the standard slots.  The
dup2 calls only overwrite the standard slots, which stay open, so they do
not change which modelled descriptors are open. -/
def child_fds_at_exec (initial : Finset Fd) (procs : List Process) (i : ℕ) : Finset Fd :=
  close_nonstd_fds (procs.getD i default)
    (close_procs_fds (procs.drop (i + 1)) (parent_fds_before_spawn initial procs i))

/-- waitpid of the collection loop of run_procs, keyed by process id: the
pool lists the children as the OS terminated them, in arbitrary order,
each with its exit status (already through WEXITSTATUS); waitpid with an
explicit pid selects that child regardless of the pool order.  The value
for a pid missing from the pool is irrelevant (the C code ignores the
waitpid return value); 0 is used. -/
def waitpid_status (pool : List (ℕ × ℕ)) (pid : ℕ) : ℕ :=
  match pool.find? (fun e => e.1 == pid) with
  | some e => e.2
  | none => 0

/-- The while (i--) collection loop of run_procs: counting i down from
the process count, write statuses[i] from waitpid on pids[i].  The pids
array is modelled as the function from loop index to the pid stored
there, the statuses array as a function from index to value. -/
def wait_loop (pool : List (ℕ × ℕ)) (pids : ℕ → ℕ) : ℕ → (ℕ → ℤ) → (ℕ → ℤ)
  | 0, statuses => statuses
  | i + 1, statuses =>
    wait_loop pool pids i
      (Function.update statuses i ((waitpid_status pool (pids i) : ℤ)))

/-- The statuses array produced by run_procs of sshell.c: after the spawn
loop, statuses[N] is set to the -1 sentinel, then the collection loop
fills positions N-1 down to 0.  spawn_pid i is the pid fork returned for
stage i; init is the arbitrary initial contents of the statuses array. -/
def run_procs_statuses (procs : List Process) (spawn_pid : ℕ → ℕ)
    (pool : List (ℕ × ℕ)) (init : ℕ → ℤ) : ℕ → ℤ :=
  wait_loop pool spawn_pid procs.length
    (Function.update init procs.length (-1))

/-- The builtin names main of sshell.c compares the first argument
against. -/
def is_builtin_name (s : List Char) : Bool :=
  s = "exit".toList || s = "pwd".toList || s = "cd".toList || s = "sls".toList

/-- What one iteration of the main loop of sshell.c does with a command
line after reading it: on parse failure it continues; otherwise it
compares argv[0] of the first process against each builtin name in turn
and either runs that builtin directly or hands the whole process list to
run_procs. -/
inductive MainAction where
  | builtinExit
  | builtinPwd
  | builtinCd
  | builtinSls
  | runPipeline (procs : List Process)
  | parseFailure (e : ParseErr)
deriving DecidableEq

/-- The dispatch performed by main of sshell.c on one command line. -/
def main_action (can_open : List Char → Bool) (cmdline : List Char) : MainAction :=
  match (parse_command can_open cmdline).1 with
  | ParseResult.fail e => MainAction.parseFailure e
  | ParseResult.ok procs =>
    let first_arg := (procs.headD default).argv.headD []
    if first_arg = "exit".toList then MainAction.builtinExit
    else if first_arg = "pwd".toList then MainAction.builtinPwd
    else if first_arg = "cd".toList then MainAction.builtinCd
    else if first_arg = "sls".toList then MainAction.builtinSls
    else MainAction.runPipeline procs

/-- Modelled from the claims: the whitespace-split words of a line,
written with the same fuel discipline as the tokenizer so the two can be
compared.  Splits on space and tab, dropping empty pieces. -/
def wsWords_fuel : ℕ → List Char → List (List Char)
  | 0, _ => []
  | fuel + 1, s =>
    match s.dropWhile isWsChar with
    | [] => []
    | c :: rest =>
      (c :: rest.takeWhile (fun d => !isWsChar d))
        :: wsWords_fuel fuel (rest.dropWhile (fun d => !isWsChar d))

/-- The whitespace-split words of a line. -/
def wsWords (s : List Char) : List (List Char) := wsWords_fuel (s.length + 1) s

/-- A stage whose argument tokens the parser will accept: nonempty, at
most ARG_MAX tokens, every token classified as an argument. -/
def valid_stage (stage : List (List Char)) : Prop :=
  stage ≠ [] ∧ stage.length ≤ ARG_MAX ∧ ∀ t ∈ stage, is_arg (some t) = true

instance (stage : List (List Char)) : Decidable (valid_stage stage) := by
  unfold valid_stage; infer_instance

/-- Modelled from the claims: the token sequence of a pipeline built from
a first stage and, for each later stage, the pipe operator preceding it
(true is the pipe-with-error variant) followed by its tokens. -/
def pipeline_tokens (first : List (List Char)) (rest : List (Bool × List (List Char))) :
    List (List Char) :=
  first ++ (rest.map (fun s => (if s.1 then [['|', '&']] else [['|']]) ++ s.2)).flatten

/-- Modelled from the claims: the process list the descriptor-wiring
rules prescribe for such a pipeline, starting with input descriptor cur
for the first stage and pipe index k for the first pipe. -/
def wired_procs (first : List (List Char)) (rest : List (Bool × List (List Char)))
    (cur : Fd) (k : ℕ) : List Process :=
  match rest with
  | [] => [{ argv := first, fd_in := cur, fd_out := Fd.stdout, fd_err := Fd.stderr }]
  | (op, stage) :: rest2 =>
    { argv := first, fd_in := cur, fd_out := Fd.pipeWrite k,
      fd_err := if op then Fd.pipeWrite k else Fd.stderr }
      :: wired_procs stage rest2 (Fd.pipeRead k) (k + 1)

/-! ### Descriptor-closing discipline of the orchestrator -/

theorem close_nonstd_fds_eq_sdiff (p : Process) (fds : Finset Fd) :
    close_nonstd_fds p fds = fds \ nonstd_fds p := by
  unfold close_nonstd_fds nonstd_fds
  ext d
  simp only [Finset.mem_sdiff, Finset.mem_union, Finset.mem_singleton, Finset.not_mem_empty]
  split_ifs <;> simp [Finset.mem_erase] <;> tauto

theorem close_nonstd_fds_subset (p : Process) (fds : Finset Fd) :
    close_nonstd_fds p fds ⊆ fds := by
  rw [close_nonstd_fds_eq_sdiff]; exact Finset.sdiff_subset

theorem not_mem_close_nonstd_fds (p : Process) (fds : Finset Fd) (d : Fd)
    (hd : d ∈ nonstd_fds p) : d ∉ close_nonstd_fds p fds := by
  rw [close_nonstd_fds_eq_sdiff]
  simp only [Finset.mem_sdiff, not_and, not_not]
  exact fun _ => hd

theorem close_procs_fds_cons (p : Process) (t : List Process) (fds : Finset Fd) :
    close_procs_fds (p :: t) fds = close_procs_fds t (close_nonstd_fds p fds) := rfl

theorem close_procs_fds_subset (l : List Process) (fds : Finset Fd) :
    close_procs_fds l fds ⊆ fds := by
  induction l generalizing fds with
  | nil => intro d hd; exact hd
  | cons p t ih =>
    rw [close_procs_fds_cons]
    exact Finset.Subset.trans (ih _) (close_nonstd_fds_subset p fds)

theorem not_mem_close_procs_fds (l : List Process) (fds : Finset Fd) (p : Process) (d : Fd)
    (hp : p ∈ l) (hd : d ∈ nonstd_fds p) : d ∉ close_procs_fds l fds := by
  induction l generalizing fds with
  | nil => cases hp
  | cons q t ih =>
    rw [close_procs_fds_cons]
    rcases List.mem_cons.mp hp with h | h
    · subst h
      intro hcon
      exact not_mem_close_nonstd_fds p fds d hd (close_procs_fds_subset t _ hcon)
    · exact ih _ h

theorem getD_mem_take (procs : List Process) (i j : ℕ) (hji : j < i) (hj : j < procs.length) :
    procs.getD j default ∈ procs.take i := by
  have h1 : (procs.take i)[j]? = procs[j]? := List.getElem?_take_of_lt hji
  have h2 : procs[j]? = some (procs.getD j default) := by
    rw [List.getD_eq_getElem?_getD, List.getElem?_eq_getElem hj]
    rfl
  exact List.getElem?_mem (h1.trans h2)

theorem getD_mem_drop (procs : List Process) (i j : ℕ) (hij : i < j) (hj : j < procs.length) :
    procs.getD j default ∈ procs.drop (i + 1) := by
  have h1 : (procs.drop (i + 1))[j - (i + 1)]? = procs[(i + 1) + (j - (i + 1))]? :=
    List.getElem?_drop procs (i + 1) (j - (i + 1))
  have h3 : (i + 1) + (j - (i + 1)) = j := by omega
  rw [h3] at h1
  have h2 : procs[j]? = some (procs.getD j default) := by
    rw [List.getD_eq_getElem?_getD, List.getElem?_eq_getElem hj]
    rfl
  exact List.getElem?_mem (h1.trans h2)

/-- C1: in the child spawned for stage i, every pipe-end descriptor
belonging to another stage j (its non-standard input, output or error
descriptor) that is not part of stage i's own descriptor triple is closed
by the time execvp runs: the parent already closed the descriptors of
stages before i, the child closes those of stages after i and then its
own non-standard triple after duplication. -/
theorem child_closes_other_stage_descriptors
    (initial : Finset Fd) (procs : List Process) (i j : ℕ)
    (hi : i < procs.length) (hj : j < procs.length) (hne : j ≠ i) (d : Fd)
    (hd : d ∈ nonstd_fds (procs.getD j default))
    (hown : d ≠ (procs.getD i default).fd_in ∧ d ≠ (procs.getD i default).fd_out ∧
            d ≠ (procs.getD i default).fd_err) :
    d ∉ child_fds_at_exec initial procs i := by
  intro hcon
  unfold child_fds_at_exec at hcon
  have hcon1 : d ∈ close_procs_fds (procs.drop (i + 1))
      (parent_fds_before_spawn initial procs i) :=
    close_nonstd_fds_subset _ _ hcon
  rcases Nat.lt_or_ge j i with hji | hji
  · have hmem : procs.getD j default ∈ procs.take i := getD_mem_take procs i j hji hj
    have hcon2 : d ∈ parent_fds_before_spawn initial procs i :=
      close_procs_fds_subset _ _ hcon1
    exact not_mem_close_procs_fds (procs.take i) initial _ d hmem hd hcon2
  · have hij : i < j := lt_of_le_of_ne hji (Ne.symm hne)
    have hmem : procs.getD j default ∈ procs.drop (i + 1) := getD_mem_drop procs i j hij hj
    exact not_mem_close_procs_fds (procs.drop (i + 1)) _ _ d hmem hd hcon1

/-- Witness for C1 at a concrete two-stage pipeline: in the child for
stage 1, the write end of pipe 0 (owned by stage 0) is closed at exec
time. -/
theorem child_closes_other_stage_descriptors_witness :
    Fd.pipeWrite 0 ∉ child_fds_at_exec
      {Fd.stdin, Fd.stdout, Fd.stderr, Fd.pipeRead 0, Fd.pipeWrite 0}
      [⟨[['l', 's']], Fd.stdin, Fd.pipeWrite 0, Fd.stderr⟩,
       ⟨[['w', 'c']], Fd.pipeRead 0, Fd.stdout, Fd.stderr⟩] 1 :=
  child_closes_other_stage_descriptors
    {Fd.stdin, Fd.stdout, Fd.stderr, Fd.pipeRead 0, Fd.pipeWrite 0}
    [⟨[['l', 's']], Fd.stdin, Fd.pipeWrite 0, Fd.stderr⟩,
     ⟨[['w', 'c']], Fd.pipeRead 0, Fd.stdout, Fd.stderr⟩]
    1 0 (by decide) (by decide) (by decide) (Fd.pipeWrite 0) (by decide) (by decide)

/-! ### Status collection of the orchestrator -/

theorem wait_loop_apply (pool : List (ℕ × ℕ)) (pids : ℕ → ℕ) :
    ∀ (k : ℕ) (st : ℕ → ℤ) (m : ℕ),
      wait_loop pool pids k st m
        = if m < k then (waitpid_status pool (pids m) : ℤ) else st m := by
  intro k
  induction k with
  | zero => intro st m; simp [wait_loop]
  | succ k ih =>
    intro st m
    rw [wait_loop, ih]
    by_cases h1 : m < k
    · simp [h1, Nat.lt_succ_of_lt h1]
    · by_cases h2 : m = k
      · subst h2
        simp [h1, Nat.lt_succ_of_le (Nat.le_refl m)]
      · have h3 : ¬ m < k + 1 := by omega
        simp [h1, h3, Function.update_noteq h2]

theorem waitpid_status_of_mem (pool : List (ℕ × ℕ)) (status_of : ℕ → ℕ) (pid : ℕ)
    (hval : ∀ e ∈ pool, e.2 = status_of e.1)
    (hmem : ∃ e ∈ pool, e.1 = pid) :
    waitpid_status pool pid = status_of pid := by
  unfold waitpid_status
  rcases hmem with ⟨e, he, hpe⟩
  have hsome : (pool.find? (fun x => x.1 == pid)).isSome := by
    rw [List.find?_isSome]
    exact ⟨e, he, by simp [hpe]⟩
  match hfind : pool.find? (fun x => x.1 == pid) with
  | some e2 =>
    have h1 := List.find?_some hfind
    have h2 : e2 ∈ pool := List.mem_of_find?_eq_some hfind
    have h3 : e2.1 = pid := by simpa using h1
    rw [hfind]
    show e2.2 = status_of pid
    rw [hval e2 h2, h3]
  | none => rw [hfind] at hsome; simp at hsome

/-- C3: the status list reported by run_procs has exactly one entry per
stage, the entry at position i being the exit status of the process
spawned for stage i, for every order in which the children terminate
(any pool ordering), and the sentinel -1 sits right after the last
status. -/
theorem statuses_indexed_by_pipeline_position
    (procs : List Process) (spawn_pid : ℕ → ℕ) (status_of : ℕ → ℕ)
    (pool : List (ℕ × ℕ)) (init : ℕ → ℤ)
    (hval : ∀ e ∈ pool, e.2 = status_of e.1)
    (hmem : ∀ i, i < procs.length → ∃ e ∈ pool, e.1 = spawn_pid i) :
    (∀ i, i < procs.length →
        run_procs_statuses procs spawn_pid pool init i = (status_of (spawn_pid i) : ℤ)) ∧
    run_procs_statuses procs spawn_pid pool init procs.length = -1 := by
  constructor
  · intro i hi
    unfold run_procs_statuses
    rw [wait_loop_apply, if_pos hi,
      waitpid_status_of_mem pool status_of (spawn_pid i) hval (hmem i hi)]
  · unfold run_procs_statuses
    rw [wait_loop_apply, if_neg (lt_irrefl procs.length)]
    simp

/-- Witness for C3: two stages whose children appear in the pool in
reverse termination order; the statuses still come out in pipeline
order, with the -1 sentinel after them. -/
theorem statuses_indexed_by_pipeline_position_witness :
    run_procs_statuses [default, default] (fun i => 100 + i) [(101, 7), (100, 3)]
        (fun _ => 0) 0 = 3 ∧
    run_procs_statuses [default, default] (fun i => 100 + i) [(101, 7), (100, 3)]
        (fun _ => 0) 1 = 7 ∧
    run_procs_statuses [default, default] (fun i => 100 + i) [(101, 7), (100, 3)]
        (fun _ => 0) 2 = -1 := by
  have h := statuses_indexed_by_pipeline_position [default, default] (fun i => 100 + i)
    (fun p => if p = 100 then 3 else 7) [(101, 7), (100, 3)] (fun _ => 0)
    (by decide) (by decide)
  refine ⟨?_, ?_, ?_⟩
  · simpa using h.1 0 (by decide)
  · simpa using h.1 1 (by decide)
  · simpa using h.2

/-! ### read_argv -/

theorem read_argv_go_rest_length :
    ∀ (toks : List (List Char)) (i : ℕ) (acc argv rest : List (List Char)),
      read_argv_go toks i acc = ArgvResult.ok argv rest → rest.length ≤ toks.length := by
  intro toks
  induction toks with
  | nil =>
    intro i acc argv rest h
    simp only [read_argv_go] at h
    by_cases hacc : acc.isEmpty = true
    · rw [if_pos hacc] at h; cases h
    · rw [if_neg hacc] at h
      cases h
      exact Nat.le_refl _
  | cons t ts ih =>
    intro i acc argv rest h
    simp only [read_argv_go] at h
    by_cases h1 : is_arg (some t) = true
    · rw [if_pos h1] at h
      by_cases h2 : i = ARG_MAX
      · rw [if_pos h2] at h; cases h
      · rw [if_neg h2] at h
        exact Nat.le_succ_of_le (ih _ _ _ _ h)
    · rw [if_neg h1] at h
      by_cases h3 : acc.isEmpty = true
      · rw [if_pos h3] at h; cases h
      · rw [if_neg h3] at h
        cases h
        exact Nat.le_refl _

theorem read_argv_go_stage :
    ∀ (args rem acc : List (List Char)) (i : ℕ),
      (∀ t ∈ args, is_arg (some t) = true) → i + args.length ≤ ARG_MAX →
      is_arg rem.head? = false → acc ++ args ≠ [] →
      read_argv_go (args ++ rem) i acc = ArgvResult.ok (acc ++ args) rem := by
  intro args
  induction args with
  | nil =>
    intro rem acc i hargs hcount hrem hne
    have hacc : acc.isEmpty = false := List.isEmpty_eq_false.mpr (by simpa using hne)
    cases rem with
    | nil => simp [read_argv_go, hacc]
    | cons r rs =>
      have hr : is_arg (some r) = false := by simpa using hrem
      simp [read_argv_go, hacc, hr]
  | cons a as ih =>
    intro rem acc i hargs hcount hrem hne
    have ha : is_arg (some a) = true := hargs a (List.mem_cons_self a as)
    have hi : i ≠ ARG_MAX := by
      simp only [List.length_cons] at hcount
      omega
    have hrec := ih rem (acc ++ [a]) (i + 1)
      (fun t ht => hargs t (List.mem_cons_of_mem a ht))
      (by simp only [List.length_cons] at hcount ⊢; omega)
      hrem (by simp)
    simp only [List.cons_append, read_argv_go]
    rw [if_pos ha, if_neg hi]
    simpa [List.append_assoc] using hrec

theorem read_argv_stage (args rem : List (List Char))
    (hargs : ∀ t ∈ args, is_arg (some t) = true) (hne : args ≠ [])
    (hcount : args.length ≤ ARG_MAX) (hrem : is_arg rem.head? = false) :
    read_argv (args ++ rem) = ArgvResult.ok args rem := by
  have h := read_argv_go_stage args rem [] 0 hargs (by simpa using hcount) hrem
    (by simpa using hne)
  simpa [read_argv] using h

theorem read_argv_not_arg (tok : List Char) (rest : List (List Char))
    (h : is_arg (some tok) = false) :
    read_argv (tok :: rest) = ArgvResult.fail ParseErr.missingCommand := by
  simp [read_argv, read_argv_go, h]

/-! ### The parse loop at canonical fuel -/

theorem parse_loop_fuel_congr (can_open : List Char → Bool) :
    ∀ (n : ℕ) (toks : List (List Char)) (f1 f2 : ℕ) (cur : Fd) (k : ℕ)
      (acc : List Process),
      toks.length ≤ n → toks.length < f1 → toks.length < f2 →
      parse_loop_fuel can_open f1 toks cur k acc
        = parse_loop_fuel can_open f2 toks cur k acc := by
  intro n
  induction n with
  | zero =>
    intro toks f1 f2 cur k acc hn h1 h2
    have htoks : toks = [] := List.length_eq_zero.mp (Nat.le_zero.mp hn)
    subst htoks
    obtain ⟨g1, rfl⟩ : ∃ g, f1 = g + 1 := ⟨f1 - 1, by omega⟩
    obtain ⟨g2, rfl⟩ : ∃ g, f2 = g + 1 := ⟨f2 - 1, by omega⟩
    simp [parse_loop_fuel, read_argv, read_argv_go]
  | succ n ih =>
    intro toks f1 f2 cur k acc hn h1 h2
    obtain ⟨g1, rfl⟩ : ∃ g, f1 = g + 1 := ⟨f1 - 1, by omega⟩
    obtain ⟨g2, rfl⟩ : ∃ g, f2 = g + 1 := ⟨f2 - 1, by omega⟩
    simp only [parse_loop_fuel]
    cases hra : read_argv toks with
    | fail e => rfl
    | ok argv rest =>
      have hrest : rest.length ≤ toks.length := read_argv_go_rest_length toks 0 [] argv rest hra
      cases rest with
      | nil => rfl
      | cons ptok rest2 =>
        simp only [List.length_cons] at hrest
        by_cases hp : is_pipe_token (some ptok) = true
        · simp only [hp, if_true]
          exact ih rest2 g1 g2 (Fd.pipeRead k) (k + 1) _ (by omega) (by omega) (by omega)
        · simp only [hp]
          rfl

theorem parse_loop_eq (can_open : List Char → Bool) (toks : List (List Char)) (cur : Fd)
    (k : ℕ) (acc : List Process) :
    parse_loop can_open toks cur k acc =
      match read_argv toks with
      | ArgvResult.fail e => (ParseResult.fail e, [])
      | ArgvResult.ok argv rest =>
        match rest with
        | ptok :: rest2 =>
          if is_pipe_token (some ptok) then
            parse_loop can_open rest2 (Fd.pipeRead k) (k + 1)
              (acc ++ [{ argv := argv, fd_in := cur, fd_out := Fd.pipeWrite k,
                         fd_err := if secondChar ptok != nulChar then Fd.pipeWrite k
                                   else Fd.stderr }])
          else if is_out_redirect_token (some ptok) then
            match rest2 with
            | [] => (ParseResult.fail ParseErr.noOutputFile, [])
            | out_file_path :: rest3 =>
              match redirect_proc_out { argv := argv, fd_in := cur, fd_out := Fd.stdout,
                                        fd_err := Fd.stderr }
                      out_file_path (secondChar ptok != nulChar) can_open with
              | none => (ParseResult.fail ParseErr.cannotOpenOutputFile, [])
              | some proc =>
                if is_pipe_token rest3.head? then
                  (ParseResult.fail ParseErr.mislocatedOutputRedirection, [out_file_path])
                else (ParseResult.ok (acc ++ [proc]), [out_file_path])
          else
            (ParseResult.fail ParseErr.missingCommand, [])
        | [] =>
          (ParseResult.ok (acc ++ [{ argv := argv, fd_in := cur, fd_out := Fd.stdout,
                                     fd_err := Fd.stderr }]), []) := by
  show parse_loop_fuel can_open (toks.length + 1) toks cur k acc = _
  simp only [parse_loop_fuel]
  cases hra : read_argv toks with
  | fail e => rfl
  | ok argv rest =>
    have hrest : rest.length ≤ toks.length := read_argv_go_rest_length toks 0 [] argv rest hra
    cases rest with
    | nil => rfl
    | cons ptok rest2 =>
      simp only [List.length_cons] at hrest
      by_cases hp : is_pipe_token (some ptok) = true
      · simp only [hp, if_true]
        exact parse_loop_fuel_congr can_open rest2.length rest2 toks.length (rest2.length + 1)
          (Fd.pipeRead k) (k + 1) _ (Nat.le_refl _) (by omega) (by omega)
      · simp only [hp]
        rfl

/-! ### Parsing a pipeline of valid stages -/

theorem pipeline_tokens_nil (first : List (List Char)) :
    pipeline_tokens first [] = first ++ [] := by
  simp [pipeline_tokens]

theorem pipeline_tokens_cons (first : List (List Char)) (op : Bool)
    (stage : List (List Char)) (rest2 : List (Bool × List (List Char))) :
    pipeline_tokens first ((op, stage) :: rest2)
      = first ++ (if op then ['|', '&'] else ['|']) :: pipeline_tokens stage rest2 := by
  cases op <;> simp [pipeline_tokens]

theorem parse_loop_pipeline (can_open : List Char → Bool) :
    ∀ (rest : List (Bool × List (List Char))) (first : List (List Char)) (cur : Fd)
      (k : ℕ) (acc : List Process),
      valid_stage first → (∀ s ∈ rest, valid_stage s.2) →
      parse_loop can_open (pipeline_tokens first rest) cur k acc
        = (ParseResult.ok (acc ++ wired_procs first rest cur k), []) := by
  intro rest
  induction rest with
  | nil =>
    intro first cur k acc hf _
    obtain ⟨hne, hlen, hargs⟩ := hf
    rw [pipeline_tokens_nil, parse_loop_eq,
      read_argv_stage first [] hargs hne hlen (by simp [is_arg])]
    simp [wired_procs]
  | cons s rest2 ih =>
    intro first cur k acc hf hr
    obtain ⟨op, stage⟩ := s
    obtain ⟨hne, hlen, hargs⟩ := hf
    have hrem : is_arg
        ((if op then ['|', '&'] else ['|']) :: pipeline_tokens stage rest2).head? = false := by
      cases op <;> simp [is_arg, headChar]
    rw [pipeline_tokens_cons, parse_loop_eq,
      read_argv_stage first _ hargs hne hlen hrem]
    have hpipe : is_pipe_token (some (if op then ['|', '&'] else ['|'])) = true := by
      cases op <;> simp [is_pipe_token, headChar]
    have herr : (secondChar (if op then ['|', '&'] else ['|']) != nulChar) = op := by
      cases op <;> decide
    show (if is_pipe_token (some (if op then ['|', '&'] else ['|'])) = true then _ else _) = _
    rw [if_pos hpipe, herr]
    rw [ih stage (Fd.pipeRead k) (k + 1) _ (hr (op, stage) (List.mem_cons_self _ _))
      (fun s hs => hr s (List.mem_cons_of_mem _ hs))]
    simp [wired_procs, List.append_assoc]

theorem wired_procs_length :
    ∀ (rest : List (Bool × List (List Char))) (first : List (List Char)) (cur : Fd) (k : ℕ),
      (wired_procs first rest cur k).length = rest.length + 1 := by
  intro rest
  induction rest with
  | nil => intro first cur k; rfl
  | cons s rest2 ih =>
    intro first cur k
    obtain ⟨op, stage⟩ := s
    simp [wired_procs, ih]

theorem wired_procs_getD_zero_fd_in :
    ∀ (rest : List (Bool × List (List Char))) (first : List (List Char)) (cur : Fd) (k : ℕ),
      ((wired_procs first rest cur k).getD 0 default).fd_in = cur := by
  intro rest first cur k
  cases rest with
  | nil => rfl
  | cons s rest2 => obtain ⟨op, stage⟩ := s; rfl

theorem wired_procs_head_fd_in :
    ∀ (rest : List (Bool × List (List Char))) (first : List (List Char)) (cur : Fd) (k : ℕ),
      ((wired_procs first rest cur k).headD default).fd_in = cur := by
  intro rest first cur k
  cases rest with
  | nil => rfl
  | cons s rest2 => obtain ⟨op, stage⟩ := s; rfl

theorem wired_procs_wiring :
    ∀ (rest : List (Bool × List (List Char))) (first : List (List Char)) (cur : Fd)
      (k i : ℕ), i < rest.length →
      ((wired_procs first rest cur k).getD i default).fd_out = Fd.pipeWrite (k + i) ∧
      ((wired_procs first rest cur k).getD i default).fd_err
          = (if (rest.getD i (false, [])).1 then Fd.pipeWrite (k + i) else Fd.stderr) ∧
      ((wired_procs first rest cur k).getD (i + 1) default).fd_in = Fd.pipeRead (k + i) := by
  intro rest
  induction rest with
  | nil =>
    intro first cur k i hi
    exact absurd hi (by simp)
  | cons s rest2 ih =>
    intro first cur k i hi
    obtain ⟨op, stage⟩ := s
    cases i with
    | zero =>
      refine ⟨by simp [wired_procs], by simp [wired_procs], ?_⟩
      show ((wired_procs stage rest2 (Fd.pipeRead k) (k + 1)).getD 0 default).fd_in = _
      rw [wired_procs_getD_zero_fd_in]
      simp
    | succ j =>
      have hj : j < rest2.length := by simpa using hi
      have h := ih stage (Fd.pipeRead k) (k + 1) j hj
      have harith : k + 1 + j = k + (j + 1) := by omega
      simpa [wired_procs, harith] using h

theorem parse_loop_ok_shape (can_open : List Char → Bool) :
    ∀ (n : ℕ) (toks : List (List Char)) (cur : Fd) (k : ℕ) (acc : List Process)
      (procs : List Process) (tr : List (List Char)),
      toks.length ≤ n →
      parse_loop can_open toks cur k acc = (ParseResult.ok procs, tr) →
      ∃ p ps, procs = acc ++ p :: ps ∧ p.fd_in = cur := by
  intro n
  induction n with
  | zero =>
    intro toks cur k acc procs tr hn h
    have htoks : toks = [] := List.length_eq_zero.mp (Nat.le_zero.mp hn)
    subst htoks
    rw [parse_loop_eq] at h
    simp [read_argv, read_argv_go] at h
  | succ n ih =>
    intro toks cur k acc procs tr hn h
    rw [parse_loop_eq] at h
    cases hra : read_argv toks with
    | fail e =>
      rw [hra] at h
      simp at h
    | ok argv rest =>
      rw [hra] at h
      have hrest : rest.length ≤ toks.length := read_argv_go_rest_length toks 0 [] argv rest hra
      cases rest with
      | nil =>
        simp only [Prod.mk.injEq, ParseResult.ok.injEq] at h
        exact ⟨_, [], h.1.symm, rfl⟩
      | cons ptok rest2 =>
        simp only [List.length_cons] at hrest
        dsimp only at h
        by_cases hp : is_pipe_token (some ptok) = true
        · rw [if_pos hp] at h
          obtain ⟨p2, ps2, hprocs, _⟩ :=
            ih rest2 (Fd.pipeRead k) (k + 1) _ procs tr (by omega) h
          refine ⟨{ argv := argv, fd_in := cur, fd_out := Fd.pipeWrite k,
                    fd_err := if secondChar ptok != nulChar then Fd.pipeWrite k
                              else Fd.stderr }, p2 :: ps2, ?_, rfl⟩
          rw [hprocs]
          simp
        · rw [if_neg hp] at h
          by_cases ho : is_out_redirect_token (some ptok) = true
          · rw [if_pos ho] at h
            cases rest2 with
            | nil => simp at h
            | cons out_file_path rest3 =>
              dsimp only at h
              cases hro : redirect_proc_out
                  { argv := argv, fd_in := cur, fd_out := Fd.stdout, fd_err := Fd.stderr }
                  out_file_path (secondChar ptok != nulChar) can_open with
              | none => rw [hro] at h; simp at h
              | some proc =>
                rw [hro] at h
                dsimp only at h
                have hfd : proc.fd_in = cur := by
                  simp only [redirect_proc_out] at hro
                  by_cases hc : can_open out_file_path = true
                  · rw [if_pos hc] at hro
                    cases hro
                    rfl
                  · rw [if_neg hc] at hro; cases hro
                by_cases hpr : is_pipe_token rest3.head? = true
                · rw [if_pos hpr] at h; simp at h
                · rw [if_neg hpr] at h
                  simp only [Prod.mk.injEq, ParseResult.ok.injEq] at h
                  exact ⟨proc, [], h.1.symm, hfd⟩
          · rw [if_neg ho] at h
            simp at h

/-- C4: for adjacent stages joined by the i-th pipe operator, the wiring
gives stage i the write end of pipe i as output descriptor, gives it that
same write end as error descriptor exactly when the operator was the
pipe-with-error variant and the standard error stream otherwise, and
gives stage i+1 the read end of pipe i as input descriptor; each adjacent
pair uses its own pipe (pipe index i), and the first stage of every
successfully parsed command line reads from standard input. -/
theorem pipe_wiring_correct (can_open : List Char → Bool)
    (first : List (List Char)) (rest : List (Bool × List (List Char)))
    (hf : valid_stage first) (hr : ∀ s ∈ rest, valid_stage s.2) :
    (∀ cmdline procs, (parse_command can_open cmdline).1 = ParseResult.ok procs →
        ∃ p ps, procs = p :: ps ∧ p.fd_in = Fd.stdin) ∧
    (parse_tokens can_open (pipeline_tokens first rest)).1
        = ParseResult.ok (wired_procs first rest Fd.stdin 0) ∧
    (wired_procs first rest Fd.stdin 0).length = rest.length + 1 ∧
    (∀ i, i < rest.length →
        ((wired_procs first rest Fd.stdin 0).getD i default).fd_out = Fd.pipeWrite i ∧
        ((wired_procs first rest Fd.stdin 0).getD i default).fd_err
            = (if (rest.getD i (false, [])).1 then Fd.pipeWrite i else Fd.stderr) ∧
        ((wired_procs first rest Fd.stdin 0).getD (i + 1) default).fd_in = Fd.pipeRead i) := by
  refine ⟨?_, ?_, wired_procs_length rest first Fd.stdin 0, ?_⟩
  · intro cmdline procs h
    unfold parse_command parse_tokens at h
    cases htoks : read_tokens cmdline with
    | nil => rw [htoks] at h; simp at h
    | cons t ts =>
      rw [htoks] at h
      cases hpl : parse_loop can_open (t :: ts) Fd.stdin 0 [] with
      | mk r tr =>
        rw [hpl] at h
        simp only [] at h
        subst h
        obtain ⟨p, ps, hprocs, hfd⟩ :=
          parse_loop_ok_shape can_open (t :: ts).length (t :: ts) Fd.stdin 0 [] procs tr
            (Nat.le_refl _) hpl
        exact ⟨p, ps, by simpa using hprocs, hfd⟩
  · have hne : pipeline_tokens first rest ≠ [] := by
      obtain ⟨hne1, _, _⟩ := hf
      cases hfirst : first with
      | nil => exact absurd hfirst hne1
      | cons a first2 => simp [pipeline_tokens, hfirst]
    cases htoks : pipeline_tokens first rest with
    | nil => exact absurd htoks hne
    | cons t ts =>
      show (parse_loop can_open (t :: ts) Fd.stdin 0 []).1 = _
      rw [← htoks, parse_loop_pipeline can_open rest first Fd.stdin 0 [] hf hr]
      simp
  · intro i hi
    have h := wired_procs_wiring rest first Fd.stdin 0 i hi
    simpa using h

/-- Witness for C4 at the pipeline ls pipe-with-error wc: the two stages
share pipe 0, the first stage writing both output and error into its
write end, the second reading from its read end. -/
theorem pipe_wiring_correct_witness :
    (parse_tokens (fun _ => true)
        (pipeline_tokens [['l', 's']] [(true, [['w', 'c']])])).1
      = ParseResult.ok (wired_procs [['l', 's']] [(true, [['w', 'c']])] Fd.stdin 0) ∧
    ((wired_procs [['l', 's']] [(true, [['w', 'c']])] Fd.stdin 0).getD 0 default).fd_out
      = Fd.pipeWrite 0 ∧
    ((wired_procs [['l', 's']] [(true, [['w', 'c']])] Fd.stdin 0).getD 0 default).fd_err
      = Fd.pipeWrite 0 ∧
    ((wired_procs [['l', 's']] [(true, [['w', 'c']])] Fd.stdin 0).getD 1 default).fd_in
      = Fd.pipeRead 0 := by
  have h := pipe_wiring_correct (fun _ => true) [['l', 's']] [(true, [['w', 'c']])]
    (by decide) (by decide)
  refine ⟨h.2.1, ?_, ?_, ?_⟩
  · simpa using (h.2.2.2 0 (by decide)).1
  · simpa using (h.2.2.2 0 (by decide)).2.1
  · simpa using (h.2.2.2 0 (by decide)).2.2

/-! ### Concrete parses -/

/-- C2 (the claim fails on the code): parsing the nine-stage pipeline
produces nine wired processes and no error at all; parse_command has no
stage-count check and no too-many-processes error path, even though the
procs, pids and statuses arrays of the C code hold only PROCESS_MAX = 8
slots, which storing the ninth process and the terminator overruns. -/
theorem nine_stage_pipeline_parse_succeeds :
    (parse_command (fun _ => true) ("a|b|c|d|e|f|g|h|i".toList)).1
      = ParseResult.ok
        [⟨[['a']], Fd.stdin, Fd.pipeWrite 0, Fd.stderr⟩,
         ⟨[['b']], Fd.pipeRead 0, Fd.pipeWrite 1, Fd.stderr⟩,
         ⟨[['c']], Fd.pipeRead 1, Fd.pipeWrite 2, Fd.stderr⟩,
         ⟨[['d']], Fd.pipeRead 2, Fd.pipeWrite 3, Fd.stderr⟩,
         ⟨[['e']], Fd.pipeRead 3, Fd.pipeWrite 4, Fd.stderr⟩,
         ⟨[['f']], Fd.pipeRead 4, Fd.pipeWrite 5, Fd.stderr⟩,
         ⟨[['g']], Fd.pipeRead 5, Fd.pipeWrite 6, Fd.stderr⟩,
         ⟨[['h']], Fd.pipeRead 6, Fd.pipeWrite 7, Fd.stderr⟩,
         ⟨[['i']], Fd.pipeRead 7, Fd.stdout, Fd.stderr⟩] ∧
    PROCESS_MAX < 9 := by
  exact ⟨by decide, by decide⟩

/-- C6 counterexample: a second redirection after a completed one is
accepted by parse_command with only the first redirection applied and the
trailing tokens silently ignored, instead of failing with a structural
error. -/
theorem second_redirect_accepted_ce :
    (parse_command (fun _ => true) ("ls > out.txt > out2.txt".toList)).1
      = ParseResult.ok
        [⟨[['l', 's']], Fd.stdin, Fd.outFile ("out.txt".toList), Fd.stderr⟩] := by
  decide

/-- C7 counterexample: a redirect operator followed by another operator
token does not fail with the missing-output-file error; the operator
token is used as the output file name and the command is accepted. -/
theorem operator_as_output_file_ce :
    (parse_command (fun _ => true) ("ls > >".toList)).1
      = ParseResult.ok [⟨[['l', 's']], Fd.stdin, Fd.outFile ['>'], Fd.stderr⟩] := by
  decide

/-- C8 counterexample: an empty command line fails with the silent bare
return of parse_command, not with the missing-command error message. -/
theorem empty_line_silent_failure_ce :
    (parse_command (fun _ => true) ("".toList)).1 = ParseResult.fail ParseErr.emptyCommandLine
      ∧ (parse_command (fun _ => true) ("".toList)).1
          ≠ ParseResult.fail ParseErr.missingCommand := by
  decide

/-- C9 counterexample: a command line containing a pipe is still
dispatched as a builtin when the first argument of its first stage is a
builtin name; the rest of the pipeline is never run. -/
theorem piped_builtin_dispatch_ce :
    main_action (fun _ => true) ("pwd | cat".toList) = MainAction.builtinPwd ∧
    '|' ∈ "pwd | cat".toList := by
  decide

/-! ### Tokenizer -/

theorem takeWhile_congr_of_mem {p q : Char → Bool} :
    ∀ (l : List Char), (∀ c ∈ l, p c = q c) → l.takeWhile p = l.takeWhile q := by
  intro l
  induction l with
  | nil => intro h; rfl
  | cons c cs ih =>
    intro h
    simp only [List.takeWhile_cons]
    rw [h c (List.mem_cons_self c cs)]
    by_cases hq : q c = true
    · rw [if_pos hq, if_pos hq, ih (fun d hd => h d (List.mem_cons_of_mem c hd))]
    · rw [if_neg hq, if_neg hq]

theorem dropWhile_congr_of_mem {p q : Char → Bool} :
    ∀ (l : List Char), (∀ c ∈ l, p c = q c) → l.dropWhile p = l.dropWhile q := by
  intro l
  induction l with
  | nil => intro h; rfl
  | cons c cs ih =>
    intro h
    simp only [List.dropWhile_cons]
    rw [h c (List.mem_cons_self c cs)]
    by_cases hq : q c = true
    · rw [if_pos hq, if_pos hq, ih (fun d hd => h d (List.mem_cons_of_mem c hd))]
    · rw [if_neg hq, if_neg hq]

theorem read_next_token_length (s tok rest : List Char) :
    read_next_token s = some (tok, rest) → rest.length < s.length := by
  unfold read_next_token
  cases hdw : s.dropWhile isWsChar with
  | nil => intro h; cases h
  | cons c cs =>
    have hlen : (c :: cs).length ≤ s.length := by
      rw [← hdw]
      exact List.Sublist.length_le (List.dropWhile_sublist _)
    simp only [List.length_cons] at hlen
    dsimp only
    by_cases hop : (c = '|' || c = '>') = true
    · rw [if_pos hop]
      by_cases hamp : cs.headD nulChar = '&'
      · rw [if_pos hamp]
        intro h
        cases h
        have h2 : cs.tail.length ≤ cs.length := by
          cases cs <;> simp
        omega
      · rw [if_neg hamp]
        intro h
        cases h
        omega
    · rw [if_neg hop]
      intro h
      cases h
      have h2 : (cs.dropWhile isWordChar).length ≤ cs.length :=
        List.Sublist.length_le (List.dropWhile_sublist _)
      omega

theorem read_tokens_fuel_congr :
    ∀ (n f1 f2 : ℕ) (s : List Char), s.length ≤ n → s.length < f1 → s.length < f2 →
      read_tokens_fuel f1 s = read_tokens_fuel f2 s := by
  intro n
  induction n with
  | zero =>
    intro f1 f2 s hn h1 h2
    have hs : s = [] := List.length_eq_zero.mp (Nat.le_zero.mp hn)
    subst hs
    obtain ⟨g1, rfl⟩ : ∃ g, f1 = g + 1 := ⟨f1 - 1, by omega⟩
    obtain ⟨g2, rfl⟩ : ∃ g, f2 = g + 1 := ⟨f2 - 1, by omega⟩
    rfl
  | succ n ih =>
    intro f1 f2 s hn h1 h2
    obtain ⟨g1, rfl⟩ : ∃ g, f1 = g + 1 := ⟨f1 - 1, by omega⟩
    obtain ⟨g2, rfl⟩ : ∃ g, f2 = g + 1 := ⟨f2 - 1, by omega⟩
    simp only [read_tokens_fuel]
    cases hrt : read_next_token s with
    | none => rfl
    | some pr =>
      obtain ⟨tok, rest⟩ := pr
      have hlt := read_next_token_length s tok rest hrt
      dsimp only
      rw [ih g1 g2 rest (by omega) (by omega) (by omega)]

theorem read_tokens_all_ws (s : List Char) (h : ∀ c ∈ s, isWsChar c = true) :
    read_tokens s = [] := by
  have hdw : s.dropWhile isWsChar = [] := List.dropWhile_eq_nil_iff.mpr h
  unfold read_tokens
  simp [read_tokens_fuel, read_next_token, hdw]

theorem read_tokens_fuel_eq_wsWords :
    ∀ (fuel : ℕ) (s : List Char), s.length < fuel →
      (∀ c ∈ s, c ≠ '|' ∧ c ≠ '>') →
      read_tokens_fuel fuel s = wsWords_fuel fuel s := by
  intro fuel
  induction fuel with
  | zero => intro s h; omega
  | succ fuel ih =>
    intro s hlen hno
    simp only [read_tokens_fuel, wsWords_fuel, read_next_token]
    cases hdw : s.dropWhile isWsChar with
    | nil => rfl
    | cons c cs =>
      have hsub : ∀ x ∈ c :: cs, x ∈ s := fun x hx =>
        (List.dropWhile_sublist isWsChar).subset (hdw ▸ hx)
      have hlen2 : (c :: cs).length ≤ s.length := by
        rw [← hdw]
        exact List.Sublist.length_le (List.dropWhile_sublist _)
      simp only [List.length_cons] at hlen2
      have hc := hno c (hsub c (List.mem_cons_self c cs))
      have hcop : ¬(c = '|' || c = '>') = true := by simp [hc.1, hc.2]
      dsimp only
      rw [if_neg hcop]
      dsimp only
      have hcs : ∀ d ∈ cs, isWordChar d = (fun d => !isWsChar d) d := by
        intro d hd
        have hdno := hno d (hsub d (List.mem_cons_of_mem c hd))
        simp [isWordChar, isWsChar, hdno.1, hdno.2]
      rw [takeWhile_congr_of_mem cs hcs, dropWhile_congr_of_mem cs hcs]
      have hdrop : (cs.dropWhile (fun d => !isWsChar d)).length ≤ cs.length :=
        List.Sublist.length_le (List.dropWhile_sublist _)
      congr 1
      exact ih (cs.dropWhile (fun d => !isWsChar d)) (by omega)
        (fun x hx => hno x (hsub x (List.mem_cons_of_mem c
          ((List.dropWhile_sublist _).subset hx))))

theorem read_tokens_eq_wsWords (s : List Char) (hno : ∀ c ∈ s, c ≠ '|' ∧ c ≠ '>') :
    read_tokens s = wsWords s :=
  read_tokens_fuel_eq_wsWords (s.length + 1) s (by omega) hno

theorem wsWords_fuel_mem :
    ∀ (fuel : ℕ) (s w : List Char), w ∈ wsWords_fuel fuel s →
      w ≠ [] ∧ ∀ c ∈ w, c ∈ s := by
  intro fuel
  induction fuel with
  | zero => intro s w h; cases h
  | succ fuel ih =>
    intro s w h
    cases hdw : s.dropWhile isWsChar with
    | nil =>
      simp only [wsWords_fuel, hdw] at h
      cases h
    | cons c cs =>
      simp only [wsWords_fuel, hdw] at h
      have hsub : ∀ x ∈ c :: cs, x ∈ s := fun x hx =>
        (List.dropWhile_sublist isWsChar).subset (hdw ▸ hx)
      rcases List.mem_cons.mp h with h1 | h1
      · subst h1
        refine ⟨by simp, ?_⟩
        intro x hx
        rcases List.mem_cons.mp hx with h2 | h2
        · subst h2
          exact hsub x (List.mem_cons_self x cs)
        · exact hsub x (List.mem_cons_of_mem c ((List.takeWhile_sublist _).subset h2))
      · obtain ⟨hne, hmem⟩ := ih (cs.dropWhile (fun d => !isWsChar d)) w h1
        refine ⟨hne, fun x hx => ?_⟩
        exact hsub x (List.mem_cons_of_mem c ((List.dropWhile_sublist _).subset (hmem x hx)))

theorem parse_tokens_ne_nil (can_open : List Char → Bool) (tokens : List (List Char))
    (h : tokens ≠ []) :
    parse_tokens can_open tokens = parse_loop can_open tokens Fd.stdin 0 [] := by
  cases tokens with
  | nil => exact absurd rfl h
  | cons t ts => rfl

/-- C5: a command line containing no pipe and no redirect character, with
1 to 16 whitespace-separated words each fitting the token buffer, parses
into exactly one stage whose argument vector is the list of those words,
in order, reading standard input and writing to the standard output and
error streams. -/
theorem single_stage_parse_matches_words (can_open : List Char → Bool) (s : List Char)
    (hno : ∀ c ∈ s, c ≠ '|' ∧ c ≠ '>')
    (h1 : 1 ≤ (wsWords s).length) (h16 : (wsWords s).length ≤ ARG_MAX)
    (hlen : ∀ w ∈ wsWords s, w.length < TOKEN_MAX) :
    (parse_command can_open s).1
      = ParseResult.ok [{ argv := wsWords s, fd_in := Fd.stdin, fd_out := Fd.stdout,
                          fd_err := Fd.stderr }] := by
  have htok : read_tokens s = wsWords s := read_tokens_eq_wsWords s hno
  have hne : wsWords s ≠ [] := by
    intro hcon
    rw [hcon] at h1
    simp at h1
  have hargs : ∀ t ∈ wsWords s, is_arg (some t) = true := by
    intro t ht
    obtain ⟨htne, hmem⟩ := wsWords_fuel_mem (s.length + 1) s t ht
    cases t with
    | nil => exact absurd rfl htne
    | cons c cs =>
      have hc := hno c (hmem c (List.mem_cons_self c cs))
      simp [is_arg, headChar, hc.1, hc.2]
  have hargv := read_argv_stage (wsWords s) [] hargs hne h16 (by simp [is_arg])
  rw [List.append_nil] at hargv
  unfold parse_command
  rw [htok, parse_tokens_ne_nil can_open (wsWords s) hne, parse_loop_eq, hargv]
  rfl

/-- Witness for C5 at the line echo hello. -/
theorem single_stage_parse_matches_words_witness :
    (parse_command (fun _ => true) ("echo hello".toList)).1
      = ParseResult.ok [{ argv := wsWords ("echo hello".toList), fd_in := Fd.stdin,
                          fd_out := Fd.stdout, fd_err := Fd.stderr }] :=
  single_stage_parse_matches_words (fun _ => true) ("echo hello".toList)
    (by decide) (by decide) (by decide) (by decide)

/-! ### Redirection handling -/

theorem parse_loop_redirect (can_open : List Char → Bool)
    (args : List (List Char)) (rtok f : List Char) (rest3 : List (List Char))
    (cur : Fd) (k : ℕ) (acc : List Process)
    (hargs : ∀ t ∈ args, is_arg (some t) = true) (hne : args ≠ [])
    (hcount : args.length ≤ ARG_MAX) (hr : headChar rtok = '>') :
    parse_loop can_open (args ++ rtok :: f :: rest3) cur k acc
      = if can_open f then
          (if is_pipe_token rest3.head? then
            (ParseResult.fail ParseErr.mislocatedOutputRedirection, [f])
          else
            (ParseResult.ok (acc ++ [{ argv := args, fd_in := cur, fd_out := Fd.outFile f,
                                       fd_err := if secondChar rtok != nulChar then
                                                   Fd.outFile f
                                                 else Fd.stderr }]), [f]))
        else (ParseResult.fail ParseErr.cannotOpenOutputFile, []) := by
  have hnotarg : is_arg ((rtok :: f :: rest3).head?) = false := by
    simp [is_arg, headChar] at hr ⊢
    simp [hr]
  rw [parse_loop_eq, read_argv_stage args (rtok :: f :: rest3) hargs hne hcount hnotarg]
  have hnp : ¬ is_pipe_token (some rtok) = true := by
    simp [is_pipe_token, hr]
  have hro : is_out_redirect_token (some rtok) = true := by
    simp [is_out_redirect_token, hr]
  dsimp only
  rw [if_neg hnp, if_pos hro]
  simp only [redirect_proc_out]
  by_cases hc : can_open f = true
  · rw [if_pos hc, if_pos hc]
  · rw [if_neg hc, if_neg hc]

theorem parse_loop_redirect_no_file (can_open : List Char → Bool)
    (args : List (List Char)) (rtok : List Char) (cur : Fd) (k : ℕ) (acc : List Process)
    (hargs : ∀ t ∈ args, is_arg (some t) = true) (hne : args ≠ [])
    (hcount : args.length ≤ ARG_MAX) (hr : headChar rtok = '>') :
    parse_loop can_open (args ++ [rtok]) cur k acc
      = (ParseResult.fail ParseErr.noOutputFile, []) := by
  have hnotarg : is_arg (([rtok] : List (List Char)).head?) = false := by
    simp [is_arg, headChar] at hr ⊢
    simp [hr]
  rw [parse_loop_eq, read_argv_stage args [rtok] hargs hne hcount hnotarg]
  have hnp : ¬ is_pipe_token (some rtok) = true := by
    simp [is_pipe_token, hr]
  have hro : is_out_redirect_token (some rtok) = true := by
    simp [is_out_redirect_token, hr]
  dsimp only
  rw [if_neg hnp, if_pos hro]

theorem append_cons_ne_nil (args : List (List Char)) (t : List Char)
    (rest : List (List Char)) (h : args ≠ []) : args ++ t :: rest ≠ [] := by
  cases args with
  | nil => exact absurd rfl h
  | cons a as => simp

theorem parse_tokens_redirect_then_pipe (can_open : List Char → Bool)
    (args : List (List Char)) (f ptok : List Char) (rest : List (List Char))
    (hargs : ∀ t ∈ args, is_arg (some t) = true) (hne : args ≠ [])
    (hcount : args.length ≤ ARG_MAX)
    (hopen : can_open f = true) (hp : headChar ptok = '|') :
    parse_tokens can_open (args ++ ['>'] :: f :: ptok :: rest)
      = (ParseResult.fail ParseErr.mislocatedOutputRedirection, [f]) := by
  rw [parse_tokens_ne_nil can_open _ (append_cons_ne_nil args ['>'] _ hne),
    parse_loop_redirect can_open args ['>'] f (ptok :: rest) Fd.stdin 0 [] hargs hne hcount
      (by decide)]
  have hpipe : is_pipe_token ((ptok :: rest).head?) = true := by
    simp [is_pipe_token, hp]
  rw [if_pos hopen, if_pos hpipe]

/-- C10: for a command line of the shape cmd args > file | ..., when the
target file can be opened, parse_command opens it (creating or truncating
it, recorded in the trace of opened files) before running the
misplaced-redirection check, so the command is rejected with the
mislocated-redirection error only after the file system has been
modified, and no process list is produced. -/
theorem redirect_opens_file_before_misplaced_check (can_open : List Char → Bool)
    (args : List (List Char)) (f ptok : List Char) (rest : List (List Char))
    (hargs : ∀ t ∈ args, is_arg (some t) = true) (hne : args ≠ [])
    (hcount : args.length ≤ ARG_MAX)
    (hopen : can_open f = true) (hp : headChar ptok = '|') :
    parse_tokens can_open (args ++ ['>'] :: f :: ptok :: rest)
      = (ParseResult.fail ParseErr.mislocatedOutputRedirection, [f]) :=
  parse_tokens_redirect_then_pipe can_open args f ptok rest hargs hne hcount hopen hp

/-- Witness for C10 at the line ls > out.txt | more: the parse fails with
the mislocated-redirection error, yet out.txt has already been opened. -/
theorem redirect_opens_file_before_misplaced_check_witness :
    parse_tokens (fun _ => true)
        ([['l', 's']] ++ ['>'] :: ("out.txt".toList) :: ['|'] :: [['m', 'o', 'r', 'e']])
      = (ParseResult.fail ParseErr.mislocatedOutputRedirection, [("out.txt".toList)]) :=
  redirect_opens_file_before_misplaced_check (fun _ => true) [['l', 's']]
    ("out.txt".toList) ['|'] [['m', 'o', 'r', 'e']]
    (by decide) (by decide) (by decide) rfl (by decide)

/-- C6 amended: after a completed redirection, a following pipe token
makes the parse fail with the mislocated-redirection error, but a
following second redirect token is not an error: the command is accepted
with only the first redirection applied and the remaining tokens
silently ignored. -/
theorem redirect_then_pipe_fails_second_redirect_ignored (can_open : List Char → Bool) :
    (∀ args f ptok rest, (∀ t ∈ args, is_arg (some t) = true) → args ≠ [] →
        args.length ≤ ARG_MAX → can_open f = true → headChar ptok = '|' →
        (parse_tokens can_open (args ++ ['>'] :: f :: ptok :: rest)).1
          = ParseResult.fail ParseErr.mislocatedOutputRedirection) ∧
    (∀ args f rtok2 rest, (∀ t ∈ args, is_arg (some t) = true) → args ≠ [] →
        args.length ≤ ARG_MAX → can_open f = true → headChar rtok2 = '>' →
        (parse_tokens can_open (args ++ ['>'] :: f :: rtok2 :: rest)).1
          = ParseResult.ok [{ argv := args, fd_in := Fd.stdin, fd_out := Fd.outFile f,
                              fd_err := Fd.stderr }]) := by
  constructor
  · intro args f ptok rest hargs hne hcount hopen hp
    rw [parse_tokens_redirect_then_pipe can_open args f ptok rest hargs hne
      hcount hopen hp]
  · intro args f rtok2 rest hargs hne hcount hopen hr2
    rw [parse_tokens_ne_nil can_open _ (append_cons_ne_nil args ['>'] _ hne),
      parse_loop_redirect can_open args ['>'] f (rtok2 :: rest) Fd.stdin 0 [] hargs hne
        hcount (by decide)]
    have hnpipe : ¬ is_pipe_token ((rtok2 :: rest).head?) = true := by
      simp [is_pipe_token, hr2]
    rw [if_pos hopen, if_neg hnpipe]
    simp [secondChar, nulChar]

/-- Witness for C6: the line ls > out.txt | more fails with the
mislocated-redirection error, while ls > out.txt > out2.txt is accepted
as a single stage redirected to out.txt. -/
theorem redirect_then_pipe_fails_second_redirect_ignored_witness :
    (parse_tokens (fun _ => true)
        ([['l', 's']] ++ ['>'] :: ("out.txt".toList) :: ['|'] :: [['m', 'o', 'r', 'e']])).1
      = ParseResult.fail ParseErr.mislocatedOutputRedirection ∧
    (parse_tokens (fun _ => true)
        ([['l', 's']] ++ ['>'] :: ("out.txt".toList) :: ['>'] :: [("out2.txt".toList)])).1
      = ParseResult.ok [{ argv := [['l', 's']], fd_in := Fd.stdin,
                          fd_out := Fd.outFile ("out.txt".toList), fd_err := Fd.stderr }] :=
  ⟨(redirect_then_pipe_fails_second_redirect_ignored (fun _ => true)).1
      [['l', 's']] ("out.txt".toList) ['|'] [['m', 'o', 'r', 'e']]
      (by decide) (by decide) (by decide) rfl (by decide),
   (redirect_then_pipe_fails_second_redirect_ignored (fun _ => true)).2
      [['l', 's']] ("out.txt".toList) ['>'] [("out2.txt".toList)]
      (by decide) (by decide) (by decide) rfl (by decide)⟩

/-- C7 amended: the missing-output-file error is raised exactly when no
token at all follows the redirect operator; when a token follows, even
another operator token, it is taken as the output file path and the
command is accepted with a file of that name as redirection target. -/
theorem missing_output_file_only_when_no_token (can_open : List Char → Bool) :
    (∀ args rtok, (∀ t ∈ args, is_arg (some t) = true) → args ≠ [] →
        args.length ≤ ARG_MAX → headChar rtok = '>' →
        (parse_tokens can_open (args ++ [rtok])).1
          = ParseResult.fail ParseErr.noOutputFile) ∧
    (∀ args f, (∀ t ∈ args, is_arg (some t) = true) → args ≠ [] →
        args.length ≤ ARG_MAX → headChar f = '>' → can_open f = true →
        (parse_tokens can_open (args ++ [['>'], f])).1
          = ParseResult.ok [{ argv := args, fd_in := Fd.stdin, fd_out := Fd.outFile f,
                              fd_err := Fd.stderr }]) := by
  constructor
  · intro args rtok hargs hne hcount hr
    rw [parse_tokens_ne_nil can_open _ (append_cons_ne_nil args rtok _ hne),
      parse_loop_redirect_no_file can_open args rtok Fd.stdin 0 [] hargs hne hcount hr]
  · intro args f hargs hne hcount hf hopen
    have hshape : args ++ [['>'], f] = args ++ ['>'] :: f :: [] := rfl
    rw [hshape, parse_tokens_ne_nil can_open _ (append_cons_ne_nil args ['>'] _ hne),
      parse_loop_redirect can_open args ['>'] f [] Fd.stdin 0 [] hargs hne hcount
        (by decide)]
    rw [if_pos hopen, if_neg (by simp [is_pipe_token])]
    simp [secondChar, nulChar]

/-- Witness for C7: ls followed by a bare redirect fails with the
missing-output-file error; ls redirected to the token consisting of the
single character greater-than is accepted, with that token as the file
name. -/
theorem missing_output_file_only_when_no_token_witness :
    (parse_tokens (fun _ => true) ([['l', 's']] ++ [['>']])).1
      = ParseResult.fail ParseErr.noOutputFile ∧
    (parse_tokens (fun _ => true) ([['l', 's']] ++ [['>'], ['>']])).1
      = ParseResult.ok [{ argv := [['l', 's']], fd_in := Fd.stdin,
                          fd_out := Fd.outFile ['>'], fd_err := Fd.stderr }] :=
  ⟨(missing_output_file_only_when_no_token (fun _ => true)).1 [['l', 's']] ['>']
      (by decide) (by decide) (by decide) (by decide),
   (missing_output_file_only_when_no_token (fun _ => true)).2 [['l', 's']] ['>']
      (by decide) (by decide) (by decide) (by decide) rfl⟩

/-! ### Missing-command cases and builtin dispatch -/

/-- C8 amended: a first token that is an operator, and a pipe token
followed by no argument token, fail with the missing-command error and
produce no process list; an empty or all-whitespace line also fails and
spawns nothing, but through the silent bare failure return of
parse_command, without the missing-command message. -/
theorem missing_command_cases (can_open : List Char → Bool) :
    (∀ s : List Char, (∀ c ∈ s, isWsChar c = true) →
        (parse_command can_open s).1 = ParseResult.fail ParseErr.emptyCommandLine) ∧
    (∀ tok rest, is_arg (some tok) = false →
        (parse_tokens can_open (tok :: rest)).1 = ParseResult.fail ParseErr.missingCommand) ∧
    (∀ args ptok rest, (∀ t ∈ args, is_arg (some t) = true) → args ≠ [] →
        args.length ≤ ARG_MAX → headChar ptok = '|' → is_arg rest.head? = false →
        (parse_tokens can_open (args ++ ptok :: rest)).1
          = ParseResult.fail ParseErr.missingCommand) := by
  refine ⟨?_, ?_, ?_⟩
  · intro s hws
    unfold parse_command
    rw [read_tokens_all_ws s hws]
    rfl
  · intro tok rest h
    rw [parse_tokens_ne_nil can_open _ (by simp), parse_loop_eq,
      read_argv_not_arg tok rest h]
  · intro args ptok rest hargs hne hcount hp hrest
    have hnotarg : is_arg ((ptok :: rest).head?) = false := by
      simp [is_arg, hp]
    rw [parse_tokens_ne_nil can_open _ (append_cons_ne_nil args ptok _ hne),
      parse_loop_eq, read_argv_stage args (ptok :: rest) hargs hne hcount hnotarg]
    have hpipe : is_pipe_token (some ptok) = true := by simp [is_pipe_token, hp]
    dsimp only
    rw [if_pos hpipe, parse_loop_eq]
    cases rest with
    | nil => rfl
    | cons r rs =>
      have hr : is_arg (some r) = false := by simpa using hrest
      rw [read_argv_not_arg r rs hr]

/-- Witness for C8: an all-whitespace line fails silently; a leading pipe
token and a trailing pipe token both fail with the missing-command
error. -/
theorem missing_command_cases_witness :
    (parse_command (fun _ => true) ("   ".toList)).1
      = ParseResult.fail ParseErr.emptyCommandLine ∧
    (parse_tokens (fun _ => true) (['|'] :: [['l', 's']])).1
      = ParseResult.fail ParseErr.missingCommand ∧
    (parse_tokens (fun _ => true) ([['l', 's']] ++ ['|'] :: [])).1
      = ParseResult.fail ParseErr.missingCommand :=
  ⟨(missing_command_cases (fun _ => true)).1 ("   ".toList) (by decide),
   (missing_command_cases (fun _ => true)).2.1 ['|'] [['l', 's']] (by decide),
   (missing_command_cases (fun _ => true)).2.2 [['l', 's']] ['|'] [] (by decide)
     (by decide) (by decide) (by decide) (by decide)⟩

/-- C9 amended: builtin dispatch considers only the first argument of the
first parsed stage: run_procs receives exactly the successfully parsed
commands whose first stage has a non-builtin first argument, and a
matching first argument is dispatched as a builtin even when the command
line contains pipes or redirection (the remaining stages are then never
run). -/
theorem builtin_dispatch_by_first_stage_name (can_open : List Char → Bool)
    (cmdline : List Char) (procs : List Process)
    (h : (parse_command can_open cmdline).1 = ParseResult.ok procs) :
    (main_action can_open cmdline = MainAction.runPipeline procs ↔
      is_builtin_name ((procs.headD default).argv.headD []) = false) ∧
    (is_builtin_name ((procs.headD default).argv.headD []) = true →
      main_action can_open cmdline = MainAction.builtinExit ∨
      main_action can_open cmdline = MainAction.builtinPwd ∨
      main_action can_open cmdline = MainAction.builtinCd ∨
      main_action can_open cmdline = MainAction.builtinSls) := by
  have hbtrue : ∀ fa : List Char,
      fa = "exit".toList ∨ fa = "pwd".toList ∨ fa = "cd".toList ∨ fa = "sls".toList →
      is_builtin_name fa = true := by
    intro fa hfa
    rcases hfa with hx | hx | hx | hx <;> rw [hx] <;> decide
  have hbfalse : ∀ fa : List Char,
      ¬fa = "exit".toList → ¬fa = "pwd".toList → ¬fa = "cd".toList → ¬fa = "sls".toList →
      is_builtin_name fa = false := by
    intro fa n1 n2 n3 n4
    simp only [is_builtin_name, Bool.or_eq_false_iff, decide_eq_false_iff_not]
    tauto
  unfold main_action
  rw [h]
  dsimp only
  split_ifs with h1 h2 h3 h4
  · refine ⟨⟨fun hcon => (nomatch hcon), fun hf => ?_⟩, fun _ => Or.inl rfl⟩
    rw [hbtrue _ (Or.inl h1)] at hf
    cases hf
  · refine ⟨⟨fun hcon => (nomatch hcon), fun hf => ?_⟩, fun _ => Or.inr (Or.inl rfl)⟩
    rw [hbtrue _ (Or.inr (Or.inl h2))] at hf
    cases hf
  · refine ⟨⟨fun hcon => (nomatch hcon), fun hf => ?_⟩,
      fun _ => Or.inr (Or.inr (Or.inl rfl))⟩
    rw [hbtrue _ (Or.inr (Or.inr (Or.inl h3)))] at hf
    cases hf
  · refine ⟨⟨fun hcon => (nomatch hcon), fun hf => ?_⟩,
      fun _ => Or.inr (Or.inr (Or.inr rfl))⟩
    rw [hbtrue _ (Or.inr (Or.inr (Or.inr h4)))] at hf
    cases hf
  · refine ⟨⟨fun _ => hbfalse _ h1 h2 h3 h4, fun _ => rfl⟩, fun hb => ?_⟩
    rw [hbfalse _ h1 h2 h3 h4] at hb
    cases hb

/-- Witness for C9: the line echo hi pipe wc is handed to the pipeline
engine because echo is not a builtin name, with both parsed stages. -/
theorem builtin_dispatch_by_first_stage_name_witness :
    main_action (fun _ => true) ("echo hi | wc".toList)
      = MainAction.runPipeline
          [{ argv := [['e', 'c', 'h', 'o'], ['h', 'i']], fd_in := Fd.stdin,
             fd_out := Fd.pipeWrite 0, fd_err := Fd.stderr },
           { argv := [['w', 'c']], fd_in := Fd.pipeRead 0, fd_out := Fd.stdout,
             fd_err := Fd.stderr }] :=
  (builtin_dispatch_by_first_stage_name (fun _ => true) ("echo hi | wc".toList)
      [{ argv := [['e', 'c', 'h', 'o'], ['h', 'i']], fd_in := Fd.stdin,
         fd_out := Fd.pipeWrite 0, fd_err := Fd.stderr },
       { argv := [['w', 'c']], fd_in := Fd.pipeRead 0, fd_out := Fd.stdout,
         fd_err := Fd.stderr }] (by decide)).1.mpr (by decide)

end SShell
